import Mathlib

/-!
Verification of the Momentum context-retrieval engine (`momentum-ai/utils.py`,
`momentum-ai/ai_client.py`) against its natural-language specification.

The Python code is shallowly embedded: texts are `List Char` (Python `str` is a
sequence of code points), numeric scores are exact rationals `ℚ` (the Python
floats in this code stay far from the scale where rounding could flip any of
the comparisons involved), external collaborators (embedding provider, vector
store, cross-encoder, timestamp parsing) are abstract function parameters, and
Python's in-place loops become structural recursions threading their state.
-/

namespace Momentum

/-! ## Python string primitives on `List Char`

`stripChars` models `str.strip()`, `splitWS` models `str.split()` (split on
whitespace runs, dropping empty pieces), `joinWS` models `' '.join(...)`, and
`collapseWS` models the `' '.join(text.split())` idiom from `polish_context`.
`hasSubChars` models the Python substring test `needle in hay`. -/

def stripChars (s : List Char) : List Char :=
  ((s.dropWhile Char.isWhitespace).reverse.dropWhile Char.isWhitespace).reverse

def splitWSAux : List Char → List Char → List (List Char)
  | [], acc => if acc = [] then [] else [acc.reverse]
  | c :: rest, acc =>
    if c.isWhitespace then
      if acc = [] then splitWSAux rest [] else acc.reverse :: splitWSAux rest []
    else splitWSAux rest (c :: acc)

def splitWS (s : List Char) : List (List Char) :=
  splitWSAux s []

def joinWS : List (List Char) → List Char
  | [] => []
  | [t] => t
  | t :: ts => t ++ ' ' :: joinWS ts

def collapseWS (s : List Char) : List Char :=
  joinWS (splitWS s)

def startsWithChars : List Char → List Char → Bool
  | [], _ => true
  | _ :: _, [] => false
  | a :: as, b :: bs => a == b && startsWithChars as bs

def hasSubChars (needle : List Char) : List Char → Bool
  | [] => startsWithChars needle []
  | c :: rest => startsWithChars needle (c :: rest) || hasSubChars needle rest

/-- Number of alphanumeric characters, as in `len([c for c in text if c.isalnum()])`. -/
def alnumCount (s : List Char) : Nat :=
  (s.filter Char.isAlphanum).length

/-! ## Data model

`Meta` is the metadata dictionary stored with each fragment; absent optional
keys are `none` / `""` mirroring `meta.get(...)` defaults.  `Doc` is the scored
fragment dictionary built by `retrieve_user_context` (`rerank_score = none`
models the key being absent).  `Cand` is one `(document, metadata, distance)`
triple returned by the vector store query. -/

structure Meta where
  user_id : String := ""
  type : String := ""
  timestamp : String := ""
  is_chunk : Bool := false
  source_doc_id : Option String := none
  chunk_index : Option Int := none
deriving DecidableEq

structure Doc where
  text : List Char
  meta : Meta
  similarity : ℚ
  recency_score : ℚ
  combined_score : ℚ
  rerank_score : Option ℚ := none
deriving DecidableEq

structure Cand where
  text : List Char
  meta : Meta
  distance : ℚ
deriving DecidableEq

/-- Aggregate character length of a fragment list. -/
def totalTextLen (docs : List Doc) : Nat :=
  (docs.map (fun d => d.text.length)).sum

/-- Python's stable descending sort `list.sort(key=..., reverse=True)`:
stable insertion sort that puts `a` before `b` whenever `key b ≤ key a`. -/
def sortByDesc {α : Type} (key : α → ℚ) (l : List α) : List α :=
  List.insertionSort (fun a b => key b ≤ key a) l

/-! ## Query planner: `determine_optimal_k` -/

def simple_keywords : List String :=
  ["hi", "hello", "thanks", "thank you", "ok", "okay", "yes", "no", "bye"]

def complex_keywords : List String :=
  ["explain", "how", "why", "what is", "compare", "analyze", "describe", "tell me about"]

/-- `determine_optimal_k` from `utils.py`: case-insensitive substring keyword
dispatch, small-talk keywords first (k=2), then analytic keywords (k=7),
default k=5. -/
def determine_optimal_k (user_message : String) : Nat :=
  let message_lower := user_message.toList.map Char.toLower
  if simple_keywords.any (fun kw => hasSubChars kw.toList message_lower) then 2
  else if complex_keywords.any (fun kw => hasSubChars kw.toList message_lower) then 7
  else 5

/-! ## Embedding client: `gemini_embedding` (`ai_client.py`)

The external provider call is a parameter returning `Except Unit` (`error`
models the call raising).  The source catches any exception and substitutes a
zero vector of dimension 768 per input text. -/

def gemini_embedding (provider : List String → Except Unit (List (List ℚ)))
    (texts : List String) : List (List ℚ) :=
  match provider texts with
  | .ok embs => embs
  | .error _ => texts.map (fun _ => List.replicate 768 (0 : ℚ))

/-- The always-succeeding provider that embeds every text as the 768-zero
vector; used to state what the exception fallback is equivalent to. -/
def zeroProvider : List String → Except Unit (List (List ℚ)) :=
  fun texts => .ok (texts.map (fun _ => List.replicate 768 (0 : ℚ)))

/-! ## Relevance scorer (the scan loop of `retrieve_user_context`)

`daysOldFn` abstracts `datetime.fromisoformat` + `(now - doc_time).days`:
`none` means the parse raised (unparseable timestamp); `some d` means the
parse succeeded and the fragment is `d` whole days old (negative for a
future-dated timestamp, exactly as Python's floor-division `.days` gives).
The division `1 / (1 + days_old/30)` raises `ZeroDivisionError` in Python when
`days_old = -30`; that exception is swallowed by the surrounding
`except Exception: pass`, leaving the default score `1.0`, which the
`if 1 + d/30 = 0` branch reproduces. -/

def recencyScore (daysOldFn : String → Option Int) (m : Meta) : ℚ :=
  if m.timestamp = "" then 1
  else
    match daysOldFn m.timestamp with
    | none => 1
    | some d =>
      if (1 : ℚ) + (d : ℚ) / 30 = 0 then 1
      else max (1 / 10) (1 / (1 + (d : ℚ) / 30))

/-- The scan loop over store candidates in store (ascending-distance) order:
similarity floor, recency scoring, score blending, and the cumulative character
budget whose violation `break`s out of the whole loop. -/
def scanDocs (daysOldFn : String → Option Int) (minSim : ℚ) (maxLen : Nat)
    (recW : ℚ) : List Cand → Nat → List Doc
  | [], _ => []
  | c :: rest, tot =>
    let sim := 1 - c.distance
    if sim < minSim then scanDocs daysOldFn minSim maxLen recW rest tot
    else
      let rs := recencyScore daysOldFn c.meta
      let comb := (1 - recW) * sim + recW * rs
      if maxLen < tot + c.text.length then []
      else
        ⟨c.text, c.meta, sim, rs, comb, none⟩ ::
          scanDocs daysOldFn minSim maxLen recW rest (tot + c.text.length)

/-- Final value of the scan's `total_length` variable (frozen at the `break`). -/
def scanTot (minSim : ℚ) (maxLen : Nat) : List Cand → Nat → Nat
  | [], tot => tot
  | c :: rest, tot =>
    if 1 - c.distance < minSim then scanTot minSim maxLen rest tot
    else if maxLen < tot + c.text.length then tot
    else scanTot minSim maxLen rest (tot + c.text.length)

/-- Whether the scan hits the budget `break`. -/
def scanBreaks (minSim : ℚ) (maxLen : Nat) : List Cand → Nat → Bool
  | [], _ => false
  | c :: rest, tot =>
    if 1 - c.distance < minSim then scanBreaks minSim maxLen rest tot
    else if maxLen < tot + c.text.length then true
    else scanBreaks minSim maxLen rest (tot + c.text.length)

/-! ## Deduplicator: `_deduplicate_context`

The source re-embeds every text (one `gemini_embedding` call) and compares
cosine similarities `dot / (norm_i * norm_unique)` against the threshold,
skipping pairs with a zero norm.  The per-text embedding is abstracted as
`embf`.  Over exact rationals the square root in `np.linalg.norm` is not
available, so the test `norm_i > 0 and norm_unique > 0 and
dot/(norm_i*norm_unique) > t` is expressed by the equivalent square-free form
`0 < normSq u ∧ 0 < normSq v ∧ 0 < dot ∧ t^2 * (normSq u * normSq v) < dot^2`
(the equivalence for `0 ≤ t` is proved over `ℝ` in
`cosSimGT_eq_sqrt_form` below). -/

def dotProd (u v : List ℚ) : ℚ :=
  (List.zipWith (· * ·) u v).sum

def normSq (v : List ℚ) : ℚ :=
  (v.map (fun x => x * x)).sum

/-- The duplicate test of `_deduplicate_context` between two embedding vectors:
both norms positive and cosine similarity strictly above `t`. -/
def cosSimGT (t : ℚ) (u v : List ℚ) : Bool :=
  decide (0 < normSq u) && decide (0 < normSq v) &&
    decide (0 < dotProd u v) &&
    decide (t ^ 2 * (normSq u * normSq v) < dotProd u v ^ 2)

def dedupLoop (embf : List Char → List ℚ) (t : ℚ) :
    List Doc → List Doc → List Doc
  | [], uniq => uniq
  | d :: rest, uniq =>
    if uniq.any (fun u => cosSimGT t (embf d.text) (embf u.text)) then
      dedupLoop embf t rest uniq
    else dedupLoop embf t rest (uniq ++ [d])

def _deduplicate_context (embf : List Char → List ℚ) (docs : List Doc)
    (similarity_threshold : ℚ := 95 / 100) : List Doc :=
  if docs.length ≤ 1 then docs
  else
    match docs with
    | [] => []
    | d :: rest => dedupLoop embf similarity_threshold rest [d]

/-! ## Re-ranker: `_rerank_documents`

`rerankFn = none` models the cross-encoder being unavailable (import failure:
permanent pass-through); `some f` models `reranker.predict` scoring each
`(query, text)` pair. -/

def clip01 (x : ℚ) : ℚ :=
  max 0 (min 1 x)

def _rerank_documents (rerankFn : Option (String → List Char → ℚ))
    (query : String) (docs : List Doc) (top_k : Nat := 10) : List Doc :=
  if docs.length ≤ 1 then docs
  else
    match rerankFn with
    | none => docs
    | some f =>
      let doc_scores := docs.map (fun d => (d, f query d.text))
      let sorted := sortByDesc (fun p => p.2) doc_scores
      (sorted.take top_k).map (fun p =>
        { p.1 with
          rerank_score := some p.2,
          combined_score := 8 / 10 * p.1.combined_score + 2 / 10 * clip01 ((p.2 + 1) / 2) })

/-! ## Context stitcher: `_include_adjacent_chunks`

`getById` abstracts `collection.get(ids=[...])`: `none` covers both an empty
result and the lookup raising (silently skipped).  Python's insertion-ordered
dicts become association lists.  The stitching state is
`(enhanced_docs, total_length, inserted)` where `inserted` records exactly the
neighbor fragments the stitcher appended (it is a proof-facing projection; the
source function returns only `enhanced_docs`). -/

/-- Python truthiness of `meta.get('source_doc_id')` (`None` and `""` falsy). -/
def truthyOpt : Option String → Bool
  | none => false
  | some s => s ≠ ""

def dictInsert (k : Int) (v : Doc) : List (Int × Doc) → List (Int × Doc)
  | [] => [(k, v)]
  | (k', v') :: rest =>
    if k' = k then (k', v) :: rest else (k', v') :: dictInsert k v rest

def groupInsert (sid : String) (idx : Int) (d : Doc) :
    List (String × List (Int × Doc)) → List (String × List (Int × Doc))
  | [] => [(sid, [(idx, d)])]
  | (s, m) :: rest =>
    if s = sid then (s, dictInsert idx d m) :: rest
    else (s, m) :: groupInsert sid idx d rest

/-- One step of the partition loop: route a fragment into the `chunked_docs`
grouping (when `is_chunk` is set, `source_doc_id` is truthy and `chunk_index`
is present) or onto `standalone_docs`. -/
def groupStep (acc : List (String × List (Int × Doc)) × List Doc) (d : Doc) :
    List (String × List (Int × Doc)) × List Doc :=
  match d.meta.is_chunk, d.meta.source_doc_id, d.meta.chunk_index with
  | true, some sid, some idx =>
    if sid ≠ "" then (groupInsert sid idx d acc.1, acc.2)
    else (acc.1, acc.2 ++ [d])
  | _, _, _ => (acc.1, acc.2 ++ [d])

/-- Partition `docs` into the `chunked_docs` grouping and the `standalone_docs`
list, in input order. -/
def groupDocs (docs : List Doc) : List (String × List (Int × Doc)) × List Doc :=
  docs.foldl groupStep ([], [])

def insertIntAsc (x : Int) : List Int → List Int
  | [] => [x]
  | y :: ys => if x ≤ y then x :: y :: ys else y :: insertIntAsc x ys

/-- `sorted(...)` on chunk indices. -/
def sortIntAsc : List Int → List Int
  | [] => []
  | x :: xs => insertIntAsc x (sortIntAsc xs)

/-- One neighbor-chunk lookup and budget-checked insertion. -/
def tryInsertChunk (getById : String → Option (List Char × Meta)) (maxLen : Nat)
    (cid : String) (st : List Doc × Nat × List Doc) : List Doc × Nat × List Doc :=
  match getById cid with
  | none => st
  | some (txt, m) =>
    if st.2.1 + txt.length ≤ maxLen then
      let nd : Doc := ⟨txt, m, 3 / 4, 1, 3 / 4, none⟩
      if nd ∈ st.1 then st
      else (st.1 ++ [nd], st.2.1 + txt.length, st.2.2 ++ [nd])
    else st

/-- Adding the retrieved chunk itself (`if doc not in enhanced_docs`), with no
budget check. -/
def mainChunkStep (m : List (Int × Doc)) (i : Int)
    (st : List Doc × Nat × List Doc) : List Doc × Nat × List Doc :=
  match m.lookup i with
  | none => st
  | some doc =>
    if doc ∈ st.1 then st
    else (st.1 ++ [doc], st.2.1 + doc.text.length, st.2.2)

/-- The body of one iteration of the inner chunk-index loop: add the main
chunk, then try the previous neighbor (when `chunk_idx > 0`), then the next. -/
def idxStep (getById : String → Option (List Char × Meta)) (maxLen : Nat)
    (sid : String) (m : List (Int × Doc)) (i : Int)
    (st : List Doc × Nat × List Doc) : List Doc × Nat × List Doc :=
  let st1 := mainChunkStep m i st
  let st2 :=
    if 0 < i then
      tryInsertChunk getById maxLen (sid ++ "_chunk_" ++ toString (i - 1)) st1
    else st1
  tryInsertChunk getById maxLen (sid ++ "_chunk_" ++ toString (i + 1)) st2

/-- The inner loop over one source document's sorted chunk indices, with the
`total_length >= max_context_length` `break`. -/
def processIdxs (getById : String → Option (List Char × Meta)) (maxLen : Nat)
    (sid : String) (m : List (Int × Doc)) :
    List Int → List Doc × Nat × List Doc → List Doc × Nat × List Doc
  | [], st => st
  | i :: rest, st =>
    let st3 := idxStep getById maxLen sid m i st
    if maxLen ≤ st3.2.1 then st3
    else processIdxs getById maxLen sid m rest st3

def processGroups (getById : String → Option (List Char × Meta)) (maxLen : Nat) :
    List (String × List (Int × Doc)) → List Doc × Nat × List Doc →
      List Doc × Nat × List Doc
  | [], st => st
  | (sid, m) :: rest, st =>
    let st' :=
      if m = [] then st
      else processIdxs getById maxLen sid m (sortIntAsc (m.map (fun p => p.1))) st
    processGroups getById maxLen rest st'

def stitchCore (getById : String → Option (List Char × Meta)) (docs : List Doc)
    (maxLen current : Nat) : List Doc × Nat × List Doc :=
  let parts := groupDocs docs
  processGroups getById maxLen parts.1 (parts.2, current, [])

def _include_adjacent_chunks (getById : String → Option (List Char × Meta))
    (docs : List Doc) (_user_id : String) (maxLen current : Nat) : List Doc :=
  if docs = [] then docs
  else sortByDesc (fun d => d.combined_score) (stitchCore getById docs maxLen current).1

/-- The fragments inserted (not passed through) by the stitcher on this input. -/
def stitchInserted (getById : String → Option (List Char × Meta))
    (docs : List Doc) (maxLen current : Nat) : List Doc :=
  (stitchCore getById docs maxLen current).2.2

/-! ## Garbage filter: `polish_context` -/

/-- Model of `hash(text.lower()[:100])`: the lowercase 100-character prefix
itself (Python's string hash idealized as injective). -/
def hashKey (s : List Char) : List Char :=
  (s.map Char.toLower).take 100

def polishLoop (minSim : ℚ) : List Doc → List (List Char) → List Doc
  | [], _ => []
  | doc :: rest, seen =>
    let text := stripChars doc.text
    if text = [] ∨ text.length < 20 then polishLoop minSim rest seen
    else if doc.similarity < minSim ∨ doc.combined_score < 1 / 2 then
      polishLoop minSim rest seen
    else
      let text2 := collapseWS text
      if (alnumCount text2 : ℚ) < (text2.length : ℚ) * (3 / 10) then
        polishLoop minSim rest seen
      else if hashKey text2 ∈ seen then polishLoop minSim rest seen
      else { doc with text := text2 } :: polishLoop minSim rest (seen ++ [hashKey text2])

def polish_context (context_docs : List Doc) (min_similarity : ℚ := 65 / 100) :
    List Doc :=
  if context_docs = [] then []
  else sortByDesc (fun d => d.combined_score) (polishLoop min_similarity context_docs [])

/-! ## Public entry point: `retrieve_user_context`

`store q_emb n user_id allowed_types` abstracts the ChromaDB nearest-neighbor
query (with its `where` clause already folded in); it returns candidates in
ascending-distance order.  The result is `none` exactly when
`gemini_embedding([query])[0]` would raise an `IndexError` (empty embedding
list); every other path returns `some` results. -/

/-- The pipeline up to (and excluding) the stitcher: scan in store order, sort
by combined score, optional dedup, optional rerank. -/
def preStitch (store : List ℚ → Nat → String → Option (List String) → List Cand)
    (embf : List Char → List ℚ) (rerankFn : Option (String → List Char → ℚ))
    (daysOldFn : String → Option Int) (q_emb : List ℚ) (user_id query : String)
    (k : Nat) (min_similarity : ℚ) (max_context_length : Nat) (recency_weight : ℚ)
    (allowed_types : Option (List String)) (deduplicate use_reranking : Bool) :
    List Doc :=
  let res := store q_emb (k * 3) user_id allowed_types
  let docs := scanDocs daysOldFn min_similarity max_context_length recency_weight res 0
  let docs := sortByDesc (fun d => d.combined_score) docs
  let docs :=
    if deduplicate ∧ 1 < docs.length then _deduplicate_context embf docs else docs
  if use_reranking then _rerank_documents rerankFn query docs (k * 2) else docs

def retrieve_user_context
    (provider : List String → Except Unit (List (List ℚ)))
    (store : List ℚ → Nat → String → Option (List String) → List Cand)
    (getById : String → Option (List Char × Meta))
    (embf : List Char → List ℚ) (rerankFn : Option (String → List Char → ℚ))
    (daysOldFn : String → Option Int) (user_id query : String) (k : Nat := 5)
    (min_similarity : ℚ := 65 / 100) (max_context_length : Nat := 2000)
    (recency_weight : ℚ := 2 / 10) (allowed_types : Option (List String) := none)
    (deduplicate : Bool := true) (use_reranking : Bool := true) :
    Option (List Doc) :=
  match gemini_embedding provider [query] with
  | [] => none
  | q_emb :: _ =>
    let docs := preStitch store embf rerankFn daysOldFn q_emb user_id query k
      min_similarity max_context_length recency_weight allowed_types deduplicate
      use_reranking
    let total := scanTot min_similarity max_context_length
      (store q_emb (k * 3) user_id allowed_types) 0
    some ((_include_adjacent_chunks getById docs user_id max_context_length total).take k)

/-- The fragments the stitcher inserted during this retrieval (empty when the
retrieval fails). -/
def retrieveInsertedDocs
    (provider : List String → Except Unit (List (List ℚ)))
    (store : List ℚ → Nat → String → Option (List String) → List Cand)
    (getById : String → Option (List Char × Meta))
    (embf : List Char → List ℚ) (rerankFn : Option (String → List Char → ℚ))
    (daysOldFn : String → Option Int) (user_id query : String) (k : Nat := 5)
    (min_similarity : ℚ := 65 / 100) (max_context_length : Nat := 2000)
    (recency_weight : ℚ := 2 / 10) (allowed_types : Option (List String) := none)
    (deduplicate : Bool := true) (use_reranking : Bool := true) : List Doc :=
  match gemini_embedding provider [query] with
  | [] => []
  | q_emb :: _ =>
    let docs := preStitch store embf rerankFn daysOldFn q_emb user_id query k
      min_similarity max_context_length recency_weight allowed_types deduplicate
      use_reranking
    let total := scanTot min_similarity max_context_length
      (store q_emb (k * 3) user_id allowed_types) 0
    stitchInserted getById docs max_context_length total

/-! ## Concrete instances used by witnesses and counterexamples -/

def metaPlain : Meta := {}

/-- A provider whose call always raises. -/
def errProvider : List String → Except Unit (List (List ℚ)) :=
  fun _ => .error ()

def candW : Cand := ⟨"some stored user context".toList, metaPlain, 1 / 10⟩

/-- A store holding one close candidate for any query embedding. -/
def storeW : List ℚ → Nat → String → Option (List String) → List Cand :=
  fun _ _ _ _ => [candW]

def getByIdNone : String → Option (List Char × Meta) :=
  fun _ => none

def embfZero : List Char → List ℚ :=
  fun _ => List.replicate 768 (0 : ℚ)

/-- The scored fragment `retrieve_user_context` builds from `candW`. -/
def docW : Doc :=
  ⟨"some stored user context".toList, metaPlain, 9 / 10, 1, 92 / 100, none⟩

def candC1a : Cand := ⟨List.replicate 20 'p', metaPlain, 1 / 10⟩

def candC1c : Cand := ⟨List.replicate 20 'q', metaPlain, 0⟩

def candC1b : Cand := ⟨List.replicate 5 'r', metaPlain, 5 / 100⟩

def candC8 : Cand :=
  ⟨"future dated note".toList, { metaPlain with timestamp := "2026-10-13T00:00:00" }, 1 / 10⟩

/-- Timestamp parser reporting every document as dated one day in the future. -/
def daysMinusOne : String → Option Int :=
  fun _ => some (-1)

def embC5u : List ℚ := [1, 0, 0, 0, 0]

/-- A rational unit vector whose cosine similarity with `embC5u` is exactly
`97/100` (since `97^2 + 23^2 + 7^2 + 3^2 + 2^2 = 100^2`). -/
def embC5v : List ℚ := [97 / 100, 23 / 100, 7 / 100, 3 / 100, 2 / 100]

def docC5a : Doc := ⟨"aa".toList, metaPlain, 9 / 10, 1, 9 / 10, none⟩

def docC5b : Doc := ⟨"bb".toList, metaPlain, 8 / 10, 1, 8 / 10, none⟩

def embfC5 : List Char → List ℚ :=
  fun t => if t = "aa".toList then embC5u else embC5v

def fC9 : String → List Char → ℚ :=
  fun _ t => if t = ['a'] then -1 else 1

def docC9a : Doc := ⟨['a'], metaPlain, 9 / 10, 1, 9 / 10, none⟩

def docC9b : Doc := ⟨['b'], metaPlain, 1 / 10, 1, 1 / 10, none⟩

/-- 10 letters, a run of 10 spaces, then one letter: 21 characters before
whitespace collapsing, 12 after. -/
def docC6 : Doc :=
  ⟨List.replicate 10 'a' ++ List.replicate 10 ' ' ++ ['b'], metaPlain, 9 / 10, 1, 9 / 10, none⟩

def docC6b : Doc := ⟨List.replicate 25 'a', metaPlain, 9 / 10, 1, 9 / 10, none⟩

def metaC7chunk : Meta :=
  { metaPlain with is_chunk := true, source_doc_id := some "S", chunk_index := some 0 }

def docC7sa : Doc := ⟨List.replicate 90 'x', metaPlain, 9 / 10, 1, 9 / 10, none⟩

def docC7ch : Doc := ⟨List.replicate 10 'y', metaC7chunk, 8 / 10, 1, 8 / 10, none⟩

/-- Point-lookup store holding the 80-character neighbor chunk `S_chunk_1`. -/
def getByIdC7 : String → Option (List Char × Meta) :=
  fun cid =>
    if cid = "S_chunk_1" then
      some (List.replicate 80 'z',
        { metaPlain with is_chunk := true, source_doc_id := some "S", chunk_index := some 1 })
    else none

section

/- The Batteries rational arithmetic definitions are `@[irreducible]`, which
blocks `decide` from evaluating concrete `ℚ` expressions during elaboration
(the kernel itself computes them fine).  Re-allow unfolding locally so that
concrete program runs can be settled by `decide`. -/

set_option allowUnsafeReducibility true

attribute [local semireducible] Rat.mul Rat.inv Rat.add Rat.sub Rat.ofScientific

/-! ## Theorems for claim C10 -/

/-- C10: the query planner's `k` is decided by case-insensitive substring rules
with small-talk checked before analytic tokens: a small-talk token occurring in
the lowercased query yields k=2, otherwise an analytic token yields k=7,
otherwise k=5; in particular `plan "hi" = 2`,
`plan "why does interest compound" = 7`, and
`plan "remind me to submit the form" = 5`. -/
theorem determine_optimal_k_spec :
    (∀ msg : String,
      simple_keywords.any
          (fun kw => hasSubChars kw.toList (msg.toList.map Char.toLower)) = true →
      determine_optimal_k msg = 2) ∧
    (∀ msg : String,
      simple_keywords.any
          (fun kw => hasSubChars kw.toList (msg.toList.map Char.toLower)) = false →
      complex_keywords.any
          (fun kw => hasSubChars kw.toList (msg.toList.map Char.toLower)) = true →
      determine_optimal_k msg = 7) ∧
    (∀ msg : String,
      simple_keywords.any
          (fun kw => hasSubChars kw.toList (msg.toList.map Char.toLower)) = false →
      complex_keywords.any
          (fun kw => hasSubChars kw.toList (msg.toList.map Char.toLower)) = false →
      determine_optimal_k msg = 5) ∧
    determine_optimal_k "hi" = 2 ∧
    determine_optimal_k "why does interest compound" = 7 ∧
    determine_optimal_k "remind me to submit the form" = 5 := by
  refine ⟨?_, ?_, ?_, by decide, by decide, by decide⟩
  · intro msg h
    simp only [determine_optimal_k]
    rw [if_pos h]
  · intro msg h1 h2
    simp only [determine_optimal_k]
    rw [if_neg (by rw [h1]; simp), if_pos h2]
  · intro msg h1 h2
    simp only [determine_optimal_k]
    rw [if_neg (by rw [h1]; simp), if_neg (by rw [h2]; simp)]

/-- Witness for C10: the first rule of `determine_optimal_k_spec` applied to the
concrete query "ok thanks". -/
theorem determine_optimal_k_spec_witness : determine_optimal_k "ok thanks" = 2 :=
  determine_optimal_k_spec.1 "ok thanks" (by decide)

/-! ## Helper lemmas about the stable descending sort -/

theorem sortByDesc_perm {α : Type} (key : α → ℚ) (l : List α) :
    List.Perm (sortByDesc key l) l :=
  List.perm_insertionSort _ l

theorem mem_sortByDesc {α : Type} {key : α → ℚ} {l : List α} {a : α}
    (h : a ∈ sortByDesc key l) : a ∈ l :=
  (sortByDesc_perm key l).mem_iff.1 h

theorem sortByDesc_sorted {α : Type} (key : α → ℚ) (l : List α) :
    List.Pairwise (fun a b => key b ≤ key a) (sortByDesc key l) := by
  haveI : IsTotal α (fun a b => key b ≤ key a) := ⟨fun a b => le_total (key b) (key a)⟩
  haveI : IsTrans α (fun a b => key b ≤ key a) := ⟨fun _ _ _ h1 h2 => le_trans h2 h1⟩
  exact List.sorted_insertionSort _ l

theorem sortByDesc_eq_of_sorted {α : Type} {key : α → ℚ} {l : List α}
    (h : List.Pairwise (fun a b => key b ≤ key a) l) : sortByDesc key l = l :=
  List.Sorted.insertionSort_eq h

/-! ## Theorems for claim C1 -/

/-- C1: candidates are scanned in the vector store's (ascending-distance) order;
if the scan over `pre` completes without hitting the budget `break` and the next
candidate `c` passes the similarity floor but would push the running character
total over `max_context_length`, the scan stops entirely: the scan result over
`pre ++ c :: post` equals the scan result over `pre` alone (every remaining
candidate is dropped regardless of its combined score), and the subsequent sort
by `combined_score` of the two results is also equal, so sorting re-admits
nothing. -/
theorem scan_budget_stops_scan :
    ∀ (f : String → Option Int) (ms : ℚ) (ml : Nat) (w : ℚ) (pre : List Cand)
      (c : Cand) (post : List Cand) (tot : Nat),
      scanBreaks ms ml pre tot = false →
      ms ≤ 1 - c.distance →
      ml < scanTot ms ml pre tot + c.text.length →
      scanDocs f ms ml w (pre ++ c :: post) tot = scanDocs f ms ml w pre tot ∧
      sortByDesc (fun d => d.combined_score) (scanDocs f ms ml w (pre ++ c :: post) tot) =
        sortByDesc (fun d => d.combined_score) (scanDocs f ms ml w pre tot) := by
  intro f ms ml w pre
  induction pre with
  | nil =>
    intro c post tot _ hs hm
    have h1 : scanDocs f ms ml w ([] ++ c :: post) tot = scanDocs f ms ml w [] tot := by
      simp only [List.nil_append, scanDocs, scanTot] at *
      rw [if_neg (not_lt.mpr hs), if_pos hm]
    exact ⟨h1, by rw [h1]⟩
  | cons a pre ih =>
    intro c post tot hb hs hm
    by_cases h1 : 1 - a.distance < ms
    · simp only [scanBreaks, if_pos h1] at hb
      simp only [scanTot, if_pos h1] at hm
      have h := ih c post tot hb hs hm
      have h2 : scanDocs f ms ml w ((a :: pre) ++ c :: post) tot =
          scanDocs f ms ml w (a :: pre) tot := by
        simp only [List.cons_append, scanDocs, if_pos h1, List.append_eq]
        exact h.1
      exact ⟨h2, by rw [h2]⟩
    · by_cases h2 : ml < tot + a.text.length
      · simp only [scanBreaks, if_neg h1, if_pos h2] at hb
        exact Bool.noConfusion hb
      · simp only [scanBreaks, if_neg h1, if_neg h2] at hb
        simp only [scanTot, if_neg h1, if_neg h2] at hm
        have h := ih c post (tot + a.text.length) hb hs hm
        have h3 : scanDocs f ms ml w ((a :: pre) ++ c :: post) tot =
            scanDocs f ms ml w (a :: pre) tot := by
          simp only [List.cons_append, scanDocs, if_neg h1, if_neg h2, List.append_eq]
          rw [h.1]
        exact ⟨h3, by rw [h3]⟩

/-- Witness for C1 at a concrete scan: `candC1a` (20 chars) is accepted, then
`candC1c` (20 chars, similarity 1) overflows the 30-character budget, so the
high-similarity `candC1b` after it is dropped. -/
theorem scan_budget_stops_scan_witness :
    scanDocs daysMinusOne (65 / 100) 30 (2 / 10) ([candC1a] ++ candC1c :: [candC1b]) 0 =
      scanDocs daysMinusOne (65 / 100) 30 (2 / 10) [candC1a] 0 :=
  (scan_budget_stops_scan daysMinusOne (65 / 100) 30 (2 / 10) [candC1a] candC1c [candC1b] 0
    (by decide) (by decide) (by decide)).1

/-! ## Theorems for claim C8 -/

/-- Helper: every fragment built by the scan carries
`recency_score = recencyScore f meta`. -/
theorem scanDocs_recency (f : String → Option Int) (ms : ℚ) (ml : Nat) (w : ℚ) :
    ∀ (cands : List Cand) (tot : Nat) (doc : Doc),
      doc ∈ scanDocs f ms ml w cands tot → doc.recency_score = recencyScore f doc.meta := by
  intro cands
  induction cands with
  | nil => intro tot doc h; simp [scanDocs] at h
  | cons c rest ih =>
    intro tot doc h
    simp only [scanDocs] at h
    split at h
    · exact ih tot doc h
    · split at h
      · simp at h
      · rcases List.mem_cons.1 h with h | h
        · subst h; rfl
        · exact ih _ doc h

/-- C8 counterexample: a candidate whose timestamp parses to `age_days = -1`
(one day in the future) receives `recency_score = 30/29 > 1`, so the claim's
"in all cases lies in [0,1]" is false on the code. -/
theorem recency_score_above_one :
    (scanDocs daysMinusOne (65 / 100) 2000 (2 / 10) [candC8] 0).map
        (fun d => d.recency_score) = [30 / 29] ∧
    ¬ ((30 : ℚ) / 29 ≤ 1) := by
  exact ⟨by decide, by decide⟩

/-- C8 amended: when the timestamp is absent or unparseable the recency score
defaults to 1; when it parses to `age_days = d` the score is
`max(0.1, 1/(1+d/30))` except at `d = -30`, where the `ZeroDivisionError` is
swallowed and the default 1 survives; the score lies in `[0.1, 1] ⊆ [0,1]`
whenever `d ≥ 0`, i.e. for timestamps not in the future (for
`-30 < d < 0` it exceeds 1, as the counterexample shows); and every scanned
fragment's `recency_score` field is exactly `recencyScore` of its metadata. -/
theorem recency_score_spec :
    ∀ (f : String → Option Int) (m : Meta),
      (m.timestamp = "" → recencyScore f m = 1) ∧
      (m.timestamp ≠ "" → f m.timestamp = none → recencyScore f m = 1) ∧
      (∀ d : Int, m.timestamp ≠ "" → f m.timestamp = some d → d ≠ -30 →
        recencyScore f m = max (1 / 10) (1 / (1 + (d : ℚ) / 30))) ∧
      (∀ d : Int, m.timestamp ≠ "" → f m.timestamp = some d → d = -30 →
        recencyScore f m = 1) ∧
      (∀ d : Int, m.timestamp ≠ "" → f m.timestamp = some d → 0 ≤ d →
        1 / 10 ≤ recencyScore f m ∧ recencyScore f m ≤ 1) ∧
      (∀ (ms : ℚ) (ml : Nat) (w : ℚ) (cands : List Cand) (tot : Nat),
        ∀ doc ∈ scanDocs f ms ml w cands tot,
          doc.recency_score = recencyScore f doc.meta) := by
  intro f m
  have hzero : ∀ d : Int, ((1 : ℚ) + (d : ℚ) / 30 = 0) ↔ d = -30 := by
    intro d
    constructor
    · intro h
      have : (d : ℚ) = -30 := by linarith [h]
      exact_mod_cast this
    · intro h
      subst h
      norm_num
  refine ⟨?_, ?_, ?_, ?_, ?_, ?_⟩
  · intro h; simp [recencyScore, h]
  · intro h hf; simp [recencyScore, h, hf]
  · intro d h hf hd
    have : ¬ ((1 : ℚ) + (d : ℚ) / 30 = 0) := fun hc => hd ((hzero d).1 hc)
    simp [recencyScore, h, hf, this]
  · intro d h hf hd
    simp [recencyScore, h, hf, (hzero d).2 hd]
  · intro d h hf hd
    have hd0 : (0 : ℚ) ≤ (d : ℚ) := by exact_mod_cast hd
    have hpos : (0 : ℚ) < 1 + (d : ℚ) / 30 := by
      have : (0 : ℚ) ≤ (d : ℚ) / 30 := by positivity
      linarith
    have hne : ¬ ((1 : ℚ) + (d : ℚ) / 30 = 0) := ne_of_gt hpos
    have hle : (1 : ℚ) / (1 + (d : ℚ) / 30) ≤ 1 := by
      rw [div_le_one hpos]
      have : (0 : ℚ) ≤ (d : ℚ) / 30 := by positivity
      linarith
    constructor
    · simp only [recencyScore, h, hf, hne]
      exact le_max_left _ _
    · simp only [recencyScore, h, hf, hne]
      exact max_le (by norm_num) hle
  · intro ms ml w cands tot doc h
    exact scanDocs_recency f ms ml w cands tot doc h

/-- Witness for C8's amended theorem: the parseable-timestamp formula branch at
`age_days = -1` on `candC8`. -/
theorem recency_score_spec_witness :
    recencyScore daysMinusOne candC8.meta = max (1 / 10) (1 / (1 + ((-1 : Int) : ℚ) / 30)) :=
  (recency_score_spec daysMinusOne candC8.meta).2.2.1 (-1) (by decide) rfl (by decide)

/-! ## Theorems for claim C4 -/

/-- C4: whenever the public retrieval entry point returns a result (for any
combination of its parameters and any behavior of the external collaborators),
that result has at most `k` fragments. -/
theorem retrieve_length_le_k :
    ∀ (P : List String → Except Unit (List (List ℚ)))
      (S : List ℚ → Nat → String → Option (List String) → List Cand)
      (G : String → Option (List Char × Meta)) (E : List Char → List ℚ)
      (R : Option (String → List Char → ℚ)) (F : String → Option Int)
      (uid q : String) (k : Nat) (ms : ℚ) (ml : Nat) (w : ℚ)
      (ty : Option (List String)) (dd ur : Bool) (l : List Doc),
      retrieve_user_context P S G E R F uid q k ms ml w ty dd ur = some l →
      l.length ≤ k := by
  intro P S G E R F uid q k ms ml w ty dd ur l h
  simp only [retrieve_user_context] at h
  rcases hq : gemini_embedding P [q] with _ | ⟨e, rest⟩ <;> rw [hq] at h
  · cases h
  · simp only [] at h
    injection h with h'
    subst h'
    exact List.length_take_le _ _

/-- Witness for C4: the concrete retrieval that returns `[docW]` has length
at most 5. -/
theorem retrieve_length_le_k_witness : ([docW] : List Doc).length ≤ 5 :=
  retrieve_length_le_k errProvider storeW getByIdNone embfZero none daysMinusOne
    "u" "q" 5 (65 / 100) 2000 (2 / 10) none true true [docW] (by decide)

/-! ## Theorems for claim C2 -/

/-- C2 counterexample: with a provider whose call raises on every input, the
retrieval does not fail: `gemini_embedding` swallows the exception, substitutes
a zero query embedding, and the retrieval returns a (substitute) result list —
contradicting "the whole retrieval call fails ... no partial or substitute
results are produced". -/
theorem retrieve_with_failing_embedding_returns_results :
    errProvider ["q"] = .error () ∧
    retrieve_user_context errProvider storeW getByIdNone embfZero none daysMinusOne
      "u" "q" 5 (65 / 100) 2000 (2 / 10) none true true = some [docW] := by
  exact ⟨rfl, by decide⟩

/-- C2 amended: if the embedding provider call raises, `gemini_embedding`
catches the exception and substitutes the zero vector of dimension 768 for each
input text (length-preservingly), and the retrieval proceeds exactly as if the
provider had returned those zero vectors — no failure is propagated and no
retry happens (the provider result is consumed once, as a value). -/
theorem gemini_embedding_error_fallback :
    (∀ (provider : List String → Except Unit (List (List ℚ))) (texts : List String),
      provider texts = .error () →
      gemini_embedding provider texts = texts.map (fun _ => List.replicate 768 (0 : ℚ)) ∧
      (gemini_embedding provider texts).length = texts.length) ∧
    (∀ (P : List String → Except Unit (List (List ℚ)))
      (S : List ℚ → Nat → String → Option (List String) → List Cand)
      (G : String → Option (List Char × Meta)) (E : List Char → List ℚ)
      (R : Option (String → List Char → ℚ)) (F : String → Option Int)
      (uid q : String) (k : Nat) (ms : ℚ) (ml : Nat) (w : ℚ)
      (ty : Option (List String)) (dd ur : Bool),
      P [q] = .error () →
      retrieve_user_context P S G E R F uid q k ms ml w ty dd ur =
        retrieve_user_context zeroProvider S G E R F uid q k ms ml w ty dd ur) := by
  constructor
  · intro provider texts h
    have h1 : gemini_embedding provider texts =
        texts.map (fun _ => List.replicate 768 (0 : ℚ)) := by
      simp only [gemini_embedding, h]
    exact ⟨h1, by rw [h1, List.length_map]⟩
  · intro P S G E R F uid q k ms ml w ty dd ur h
    have hq : gemini_embedding P [q] = gemini_embedding zeroProvider [q] := by
      simp only [gemini_embedding, h, zeroProvider]
    simp only [retrieve_user_context, hq]

/-- Witness for C2's amended theorem: the zero-vector substitution at the
concrete failing provider. -/
theorem gemini_embedding_error_fallback_witness :
    gemini_embedding errProvider ["q"] = [List.replicate 768 (0 : ℚ)] := by
  have h := (gemini_embedding_error_fallback.1 errProvider ["q"] rfl).1
  rw [h]
  rfl

/-! ## Theorems for claim C7 -/

/-- C7: a concrete stitcher input on which the output's aggregate text length
(180 characters) strictly exceeds `max_context_length = 100`: the standalone
90-character fragment is never counted against the running total (which starts
at the caller-supplied `current_length = 0`), so the 80-character neighbor
insertion individually passes its budget check
(`10 + 80 ≤ 100`) while the aggregate output is 90 + 10 + 80 = 180; no final
aggregate re-validation exists to catch this. -/
theorem stitch_exceeds_budget :
    totalTextLen (_include_adjacent_chunks getByIdC7 [docC7sa, docC7ch] "u" 100 0) = 180 ∧
    100 < totalTextLen (_include_adjacent_chunks getByIdC7 [docC7sa, docC7ch] "u" 100 0) := by
  exact ⟨by decide, by decide⟩

/-! ## Theorems for claim C9 -/

/-- C9 counterexample: with an available cross-encoder scoring text "a" at -1
and text "b" at +1, the fragment with original `combined_score = 0.9` blends to
0.72 and the one with 0.1 blends to 0.28, yet the returned order is by the raw
cross-encoder score: `[0.28, 0.72]` — not descending in the blended
`combined_score`, refuting the claim's "returns the fragments sorted descending
by the blended combined_score". -/
theorem rerank_not_sorted_by_blend :
    (_rerank_documents (some fC9) "q" [docC9a, docC9b] 4).map
        (fun d => d.combined_score) = [28 / 100, 72 / 100] ∧
    ¬ List.Pairwise (fun a b : Doc => b.combined_score ≤ a.combined_score)
        (_rerank_documents (some fC9) "q" [docC9a, docC9b] 4) := by
  exact ⟨by decide, by decide⟩

/-- C9 amended: when the cross-encoder is available and there is more than one
fragment, `_rerank_documents` overwrites each fragment's `combined_score` with
`0.8 * previous + 0.2 * clip((raw+1)/2, 0, 1)`, stores the raw score as
`rerank_score`, and returns fragments sorted descending by the RAW
cross-encoder score (the blend order is not re-established), truncated to
`top_k` (truncation also happens in raw-score order). -/
theorem rerank_spec :
    ∀ (f : String → List Char → ℚ) (q : String) (docs : List Doc) (tk : Nat),
      1 < docs.length →
      (_rerank_documents (some f) q docs tk).length ≤ tk ∧
      List.Pairwise
        (fun a b : Doc => b.rerank_score.getD 0 ≤ a.rerank_score.getD 0)
        (_rerank_documents (some f) q docs tk) ∧
      (∀ d' ∈ _rerank_documents (some f) q docs tk, ∃ d ∈ docs,
        d' = { d with
                rerank_score := some (f q d.text),
                combined_score :=
                  8 / 10 * d.combined_score + 2 / 10 * clip01 ((f q d.text + 1) / 2) }) := by
  intro f q docs tk h
  have hcond : ¬ docs.length ≤ 1 := by omega
  simp only [_rerank_documents, if_neg hcond]
  refine ⟨?_, ?_, ?_⟩
  · rw [List.length_map]
    exact List.length_take_le _ _
  · have hs := sortByDesc_sorted (fun p : Doc × ℚ => p.2)
      (docs.map (fun d => (d, f q d.text)))
    have ht := hs.sublist (List.take_sublist tk _)
    rw [List.pairwise_map]
    exact ht.imp (fun hab => hab)
  · intro d' hd'
    rcases List.mem_map.1 hd' with ⟨p, hp, rfl⟩
    have hp1 : p ∈ sortByDesc (fun p : Doc × ℚ => p.2)
        (docs.map (fun d => (d, f q d.text))) := List.mem_of_mem_take hp
    have hp2 := mem_sortByDesc hp1
    rcases List.mem_map.1 hp2 with ⟨d, hd, rfl⟩
    exact ⟨d, hd, rfl⟩

/-- Witness for C9's amended theorem: the truncation bound at the concrete
two-fragment rerank. -/
theorem rerank_spec_witness :
    (_rerank_documents (some fC9) "q" [docC9a, docC9b] 4).length ≤ 4 :=
  (rerank_spec fC9 "q" [docC9a, docC9b] 4 (by decide)).1

/-! ## Theorems for claim C5 -/

theorem dotProd_comm (u v : List ℚ) : dotProd u v = dotProd v u := by
  unfold dotProd
  rw [List.zipWith_comm_of_comm]
  exact fun a b => mul_comm a b

theorem cosSimGT_symm (t : ℚ) (u v : List ℚ) : cosSimGT t u v = cosSimGT t v u := by
  simp only [cosSimGT, dotProd_comm u v]
  rw [mul_comm (normSq u) (normSq v),
    Bool.and_comm (decide (0 < normSq u)) (decide (0 < normSq v))]

/-- Justification of the square-free duplicate test over exact numbers: for a
nonnegative threshold and positive squared norms, the source's test
`t < dot / (sqrt a * sqrt b)` is equivalent to `0 < dot ∧ t^2 * (a*b) < dot^2`,
which is what `cosSimGT` checks. -/
theorem cos_check_iff_sqrt (d a b t : ℝ) (ha : 0 < a) (hb : 0 < b) (ht : 0 ≤ t) :
    t < d / (Real.sqrt a * Real.sqrt b) ↔ 0 < d ∧ t ^ 2 * (a * b) < d ^ 2 := by
  have hsa : 0 < Real.sqrt a := Real.sqrt_pos.2 ha
  have hsb : 0 < Real.sqrt b := Real.sqrt_pos.2 hb
  have hs : 0 < Real.sqrt a * Real.sqrt b := mul_pos hsa hsb
  have hsq : (Real.sqrt a * Real.sqrt b) ^ 2 = a * b := by
    rw [mul_pow, Real.sq_sqrt ha.le, Real.sq_sqrt hb.le]
  rw [lt_div_iff₀ hs]
  constructor
  · intro h
    have hts : 0 ≤ t * (Real.sqrt a * Real.sqrt b) := mul_nonneg ht hs.le
    have hd : 0 < d := lt_of_le_of_lt hts h
    refine ⟨hd, ?_⟩
    have h2 : (t * (Real.sqrt a * Real.sqrt b)) ^ 2 < d ^ 2 := by
      have := mul_self_lt_mul_self hts h
      calc (t * (Real.sqrt a * Real.sqrt b)) ^ 2
          = t * (Real.sqrt a * Real.sqrt b) * (t * (Real.sqrt a * Real.sqrt b)) := sq _
        _ < d * d := this
        _ = d ^ 2 := (sq d).symm
    calc t ^ 2 * (a * b) = t ^ 2 * (Real.sqrt a * Real.sqrt b) ^ 2 := by rw [hsq]
      _ = (t * (Real.sqrt a * Real.sqrt b)) ^ 2 := (mul_pow t _ 2).symm
      _ < d ^ 2 := h2
  · rintro ⟨hd, h2⟩
    by_contra hcon
    push_neg at hcon
    have hts : (0 : ℝ) ≤ d := hd.le
    have := mul_self_le_mul_self hts hcon
    have h3 : d ^ 2 ≤ (t * (Real.sqrt a * Real.sqrt b)) ^ 2 := by
      calc d ^ 2 = d * d := sq d
        _ ≤ t * (Real.sqrt a * Real.sqrt b) * (t * (Real.sqrt a * Real.sqrt b)) := this
        _ = (t * (Real.sqrt a * Real.sqrt b)) ^ 2 := (sq _).symm
    have h4 : (t * (Real.sqrt a * Real.sqrt b)) ^ 2 = t ^ 2 * (a * b) := by
      rw [mul_pow, hsq]
    rw [h4] at h3
    exact absurd (lt_of_lt_of_le h2 h3) (lt_irrefl _)

/-- Helper: the dedup loop only appends to its accumulator. -/
theorem dedupLoop_prefix (embf : List Char → List ℚ) (t : ℚ) :
    ∀ (l uniq : List Doc), ∃ extra, dedupLoop embf t l uniq = uniq ++ extra := by
  intro l
  induction l with
  | nil => exact fun uniq => ⟨[], by simp [dedupLoop]⟩
  | cons d rest ih =>
    intro uniq
    simp only [dedupLoop]
    split
    · exact ih uniq
    · rcases ih (uniq ++ [d]) with ⟨extra, hx⟩
      exact ⟨[d] ++ extra, by rw [hx, List.append_assoc]⟩

/-- Helper: every element of the dedup loop's output comes from the
accumulator or the remaining input. -/
theorem dedupLoop_mem (embf : List Char → List ℚ) (t : ℚ) :
    ∀ (l uniq : List Doc) (d : Doc),
      d ∈ dedupLoop embf t l uniq → d ∈ uniq ∨ d ∈ l := by
  intro l
  induction l with
  | nil => intro uniq d h; exact Or.inl (by simpa [dedupLoop] using h)
  | cons a rest ih =>
    intro uniq d h
    simp only [dedupLoop] at h
    split at h
    · rcases ih uniq d h with h | h
      · exact Or.inl h
      · exact Or.inr (List.mem_cons_of_mem _ h)
    · rcases ih (uniq ++ [a]) d h with h | h
      · rcases List.mem_append.1 h with h | h
        · exact Or.inl h
        · exact Or.inr (List.mem_cons.2 (Or.inl (List.mem_singleton.1 h)))
      · exact Or.inr (List.mem_cons_of_mem _ h)

/-- Helper: the dedup loop preserves the pairwise no-high-similarity invariant
of its accumulator. -/
theorem dedupLoop_pairwise (embf : List Char → List ℚ) (t : ℚ) :
    ∀ (l uniq : List Doc),
      List.Pairwise
        (fun a b : Doc => cosSimGT t (embf a.text) (embf b.text) = false) uniq →
      List.Pairwise
        (fun a b : Doc => cosSimGT t (embf a.text) (embf b.text) = false)
        (dedupLoop embf t l uniq) := by
  intro l
  induction l with
  | nil => intro uniq h; simpa [dedupLoop] using h
  | cons d rest ih =>
    intro uniq h
    simp only [dedupLoop]
    split
    · exact ih uniq h
    · rename_i hany
      refine ih (uniq ++ [d]) ?_
      rw [List.pairwise_append]
      refine ⟨h, List.pairwise_singleton _ _, ?_⟩
      intro a ha b hb
      rw [List.mem_singleton] at hb
      subst hb
      have := List.any_eq_true.not.1 hany
      push_neg at this
      have hfalse := this a ha
      rw [cosSimGT_symm]
      exact Bool.not_eq_true _ ▸ hfalse

/-- C5: `_deduplicate_context` (threshold 0.95) always keeps the first
(highest-combined-score) fragment of its combined-score-sorted input; no two
fragments of its output are in the `cosSimGT`-relation (cosine similarity
strictly above 0.95 with positive norms), i.e. no two output fragments have
pairwise embedding cosine similarity > 0.95; and for a sorted two-fragment
input whose embeddings have cosine similarity exactly 0.97 (expressed
square-free: `dot^2 = (97/100)^2 * (normSq*normSq)` with positive norms and
positive dot), only the first, higher-combined-score fragment survives. -/
theorem dedup_spec :
    (∀ (embf : List Char → List ℚ) (d : Doc) (rest : List Doc),
      (_deduplicate_context embf (d :: rest)).head? = some d) ∧
    (∀ (embf : List Char → List ℚ) (docs : List Doc),
      List.Pairwise
        (fun a b : Doc =>
          cosSimGT (95 / 100) (embf a.text) (embf b.text) = false)
        (_deduplicate_context embf docs)) ∧
    (∀ (embf : List Char → List ℚ) (d1 d2 : Doc),
      d2.combined_score ≤ d1.combined_score →
      0 < normSq (embf d1.text) →
      0 < normSq (embf d2.text) →
      0 < dotProd (embf d1.text) (embf d2.text) →
      dotProd (embf d1.text) (embf d2.text) ^ 2 =
        (97 / 100) ^ 2 * (normSq (embf d1.text) * normSq (embf d2.text)) →
      _deduplicate_context embf [d1, d2] = [d1]) := by
  refine ⟨?_, ?_, ?_⟩
  · intro embf d rest
    simp only [_deduplicate_context]
    split
    · rfl
    · rcases dedupLoop_prefix embf (95 / 100) rest [d] with ⟨extra, hx⟩
      rw [hx]
      rfl
  · intro embf docs
    simp only [_deduplicate_context]
    split
    · rename_i hlen
      match docs, hlen with
      | [], _ => exact List.Pairwise.nil
      | [d], _ => exact List.pairwise_singleton _ _
      | d1 :: d2 :: rest, hlen => simp at hlen
    · match docs with
      | [] => exact List.Pairwise.nil
      | d :: rest =>
        exact dedupLoop_pairwise embf (95 / 100) rest [d] (List.pairwise_singleton _ _)
  · intro embf d1 d2 hscore hn1 hn2 hdot heq
    have htrue : cosSimGT (95 / 100) (embf d2.text) (embf d1.text) = true := by
      simp only [cosSimGT, Bool.and_eq_true, decide_eq_true_eq]
      refine ⟨⟨⟨hn2, hn1⟩, by rw [dotProd_comm]; exact hdot⟩, ?_⟩
      rw [dotProd_comm, heq, mul_comm (normSq (embf d2.text)) (normSq (embf d1.text))]
      have hpos : 0 < normSq (embf d1.text) * normSq (embf d2.text) := mul_pos hn1 hn2
      have : ((95 : ℚ) / 100) ^ 2 < (97 / 100) ^ 2 := by norm_num
      exact mul_lt_mul_of_pos_right this hpos
    simp only [_deduplicate_context]
    rw [if_neg (by simp)]
    simp [dedupLoop, htrue]

/-- Witness for C5: concrete rational embeddings with cosine similarity exactly
0.97 (unit vectors, `dot = 97/100`): only the higher-scored `docC5a` survives. -/
theorem dedup_spec_witness :
    _deduplicate_context embfC5 [docC5a, docC5b] = [docC5a] :=
  dedup_spec.2.2 embfC5 docC5a docC5b (by decide) (by decide) (by decide)
    (by decide) (by decide)

/-! ## Theorems for claim C3 -/

/-- Helper: every fragment accepted by the scan passes the similarity floor. -/
theorem scanDocs_sim (f : String → Option Int) (ms : ℚ) (ml : Nat) (w : ℚ) :
    ∀ (cands : List Cand) (tot : Nat) (d : Doc),
      d ∈ scanDocs f ms ml w cands tot → ms ≤ d.similarity := by
  intro cands
  induction cands with
  | nil => intro tot d h; simp [scanDocs] at h
  | cons c rest ih =>
    intro tot d h
    simp only [scanDocs] at h
    split at h
    · exact ih tot d h
    · rename_i hsim
      split at h
      · simp at h
      · rcases List.mem_cons.1 h with h | h
        · subst h; exact not_lt.1 hsim
        · exact ih _ d h

/-- Helper: deduplication only removes fragments. -/
theorem dedup_subset (embf : List Char → List ℚ) (t : ℚ) (docs : List Doc) (d : Doc)
    (h : d ∈ _deduplicate_context embf docs t) : d ∈ docs := by
  simp only [_deduplicate_context] at h
  split at h
  · exact h
  · cases docs with
    | nil => simp at h
    | cons d0 rest =>
      rcases dedupLoop_mem embf t rest [d0] d h with h | h
      · rw [List.mem_singleton] at h
        subst h
        exact List.mem_cons_self _ _
      · exact List.mem_cons_of_mem _ h

/-- Helper: re-ranking never changes a fragment's `similarity` field; every
output fragment shares its similarity with some input fragment. -/
theorem rerank_sim_mem (rf : Option (String → List Char → ℚ)) (q : String)
    (docs : List Doc) (tk : Nat) (d : Doc)
    (h : d ∈ _rerank_documents rf q docs tk) :
    ∃ d0 ∈ docs, d.similarity = d0.similarity := by
  simp only [_rerank_documents] at h
  split at h
  · exact ⟨d, h, rfl⟩
  · cases rf with
    | none => exact ⟨d, h, rfl⟩
    | some f =>
      rcases List.mem_map.1 h with ⟨p, hp, rfl⟩
      have hp1 := List.mem_of_mem_take hp
      have hp2 := mem_sortByDesc hp1
      rcases List.mem_map.1 hp2 with ⟨d0, hd0, rfl⟩
      exact ⟨d0, hd0, rfl⟩

theorem dictInsert_mem (k : Int) (v : Doc) :
    ∀ (m : List (Int × Doc)) (p : Int × Doc),
      p ∈ dictInsert k v m → p.2 = v ∨ p ∈ m := by
  intro m
  induction m with
  | nil =>
    intro p hp
    simp only [dictInsert] at hp
    rw [List.mem_singleton] at hp
    exact Or.inl (by rw [hp])
  | cons e rest ih =>
    rcases e with ⟨k1, v1⟩
    intro p hp
    simp only [dictInsert] at hp
    split at hp
    · rcases List.mem_cons.1 hp with hp | hp
      · exact Or.inl (by rw [hp])
      · exact Or.inr (List.mem_cons_of_mem _ hp)
    · rcases List.mem_cons.1 hp with hp | hp
      · exact Or.inr (by rw [hp]; exact List.mem_cons_self _ _)
      · rcases ih p hp with h | h
        · exact Or.inl h
        · exact Or.inr (List.mem_cons_of_mem _ h)

theorem groupInsert_mem (sid : String) (idx : Int) (d : Doc) :
    ∀ (g : List (String × List (Int × Doc))) (e : String × List (Int × Doc)),
      e ∈ groupInsert sid idx d g →
      ∀ p ∈ e.2, p.2 = d ∨ ∃ e' ∈ g, p ∈ e'.2 := by
  intro g
  induction g with
  | nil =>
    intro e he p hp
    simp only [groupInsert] at he
    rw [List.mem_singleton] at he
    subst he
    rw [List.mem_singleton] at hp
    exact Or.inl (by rw [hp])
  | cons e0 rest ih =>
    rcases e0 with ⟨s1, m1⟩
    intro e he p hp
    simp only [groupInsert] at he
    split at he
    · rcases List.mem_cons.1 he with he | he
      · subst he
        rcases dictInsert_mem idx d m1 p hp with h | h
        · exact Or.inl h
        · exact Or.inr ⟨(s1, m1), List.mem_cons_self _ _, h⟩
      · exact Or.inr ⟨e, List.mem_cons_of_mem _ he, hp⟩
    · rcases List.mem_cons.1 he with he | he
      · subst he
        exact Or.inr ⟨(s1, m1), List.mem_cons_self _ _, hp⟩
      · rcases ih e he p hp with h | ⟨e', he', hp'⟩
        · exact Or.inl h
        · exact Or.inr ⟨e', List.mem_cons_of_mem _ he', hp'⟩

theorem groupStep_spec (acc : List (String × List (Int × Doc)) × List Doc) (d : Doc) :
    (∀ e ∈ (groupStep acc d).1, ∀ p ∈ e.2, p.2 = d ∨ ∃ e' ∈ acc.1, p ∈ e'.2) ∧
    (∀ x ∈ (groupStep acc d).2, x ∈ acc.2 ∨ x = d) := by
  constructor
  · intro e he p hp
    simp only [groupStep] at he
    split at he
    · split at he
      · exact groupInsert_mem _ _ d acc.1 e he p hp
      · exact Or.inr ⟨e, he, hp⟩
    · exact Or.inr ⟨e, he, hp⟩
  · intro x hx
    simp only [groupStep] at hx
    split at hx
    · split at hx
      · exact Or.inl hx
      · rcases List.mem_append.1 hx with h | h
        · exact Or.inl h
        · exact Or.inr (List.mem_singleton.1 h)
    · rcases List.mem_append.1 hx with h | h
      · exact Or.inl h
      · exact Or.inr (List.mem_singleton.1 h)

theorem groupDocs_foldl_mem :
    ∀ (docs : List Doc) (acc : List (String × List (Int × Doc)) × List Doc),
      (∀ e ∈ (List.foldl groupStep acc docs).1, ∀ p ∈ e.2,
        p.2 ∈ docs ∨ ∃ e' ∈ acc.1, p ∈ e'.2) ∧
      (∀ x ∈ (List.foldl groupStep acc docs).2, x ∈ acc.2 ∨ x ∈ docs) := by
  intro docs
  induction docs with
  | nil =>
    intro acc
    exact ⟨fun e he p hp => Or.inr ⟨e, he, hp⟩, fun x hx => Or.inl hx⟩
  | cons d rest ih =>
    intro acc
    constructor
    · intro e he p hp
      rcases (ih (groupStep acc d)).1 e he p hp with h | ⟨e', he', hp'⟩
      · exact Or.inl (List.mem_cons_of_mem _ h)
      · rcases (groupStep_spec acc d).1 e' he' p hp' with h | ⟨e2, he2, hp2⟩
        · rw [h]; exact Or.inl (List.mem_cons_self _ _)
        · exact Or.inr ⟨e2, he2, hp2⟩
    · intro x hx
      rcases (ih (groupStep acc d)).2 x hx with h | h
      · rcases (groupStep_spec acc d).2 x h with h2 | h2
        · exact Or.inl h2
        · rw [h2]; exact Or.inr (List.mem_cons_self _ _)
      · exact Or.inr (List.mem_cons_of_mem _ h)

theorem groupDocs_fst_mem (docs : List Doc) :
    ∀ e ∈ (groupDocs docs).1, ∀ p ∈ e.2, p.2 ∈ docs := by
  intro e he p hp
  rcases (groupDocs_foldl_mem docs ([], [])).1 e he p hp with h | ⟨e', he', _⟩
  · exact h
  · simp at he'

theorem groupDocs_snd_mem (docs : List Doc) :
    ∀ x ∈ (groupDocs docs).2, x ∈ docs := by
  intro x hx
  rcases (groupDocs_foldl_mem docs ([], [])).2 x hx with h | h
  · simp at h
  · exact h

theorem lookup_mem :
    ∀ (m : List (Int × Doc)) (i : Int) (doc : Doc),
      m.lookup i = some doc → (i, doc) ∈ m := by
  intro m
  induction m with
  | nil => intro i doc h; simp [List.lookup] at h
  | cons e rest ih =>
    rcases e with ⟨k, v⟩
    intro i doc h
    simp only [List.lookup] at h
    split at h
    · rename_i heq
      injection h with h'
      subst h'
      have hik : i = k := eq_of_beq heq
      subst hik
      exact List.mem_cons_self _ _
    · exact List.mem_cons_of_mem _ (ih i doc h)

/-- Helper: the neighbor-insertion step preserves "every enhanced fragment is
either recorded as inserted or satisfies `P`" (the inserted list only grows,
and whatever it appends to `enhanced` it also records). -/
theorem tryInsertChunk_inv (getById : String → Option (List Char × Meta))
    (ml : Nat) (cid : String) (Q : Doc → Prop) (st : List Doc × Nat × List Doc)
    (h : ∀ d ∈ st.1, d ∈ st.2.2 ∨ Q d) :
    ∀ d ∈ (tryInsertChunk getById ml cid st).1,
      d ∈ (tryInsertChunk getById ml cid st).2.2 ∨ Q d := by
  intro d hd
  rcases hg : getById cid with _ | ⟨txt, m⟩
  · simp only [tryInsertChunk, hg] at hd ⊢
    exact h d hd
  · simp only [tryInsertChunk, hg] at hd ⊢
    by_cases hfit : st.2.1 + txt.length ≤ ml
    · rw [if_pos hfit] at hd ⊢
      by_cases hmem : (⟨txt, m, 3 / 4, 1, 3 / 4, none⟩ : Doc) ∈ st.1
      · rw [if_pos hmem] at hd ⊢
        exact h d hd
      · rw [if_neg hmem] at hd ⊢
        rcases List.mem_append.1 hd with hd | hd
        · rcases h d hd with h1 | h1
          · exact Or.inl (List.mem_append_left _ h1)
          · exact Or.inr h1
        · exact Or.inl (List.mem_append_right _ hd)
    · rw [if_neg hfit] at hd ⊢
      exact h d hd

theorem mainChunkStep_inv (m : List (Int × Doc)) (i : Int) (Q : Doc → Prop)
    (hm : ∀ (j : Int) (doc : Doc), m.lookup j = some doc → Q doc)
    (st : List Doc × Nat × List Doc)
    (h : ∀ d ∈ st.1, d ∈ st.2.2 ∨ Q d) :
    ∀ d ∈ (mainChunkStep m i st).1, d ∈ (mainChunkStep m i st).2.2 ∨ Q d := by
  intro d hd
  rcases hg : m.lookup i with _ | doc
  · simp only [mainChunkStep, hg] at hd ⊢
    exact h d hd
  · simp only [mainChunkStep, hg] at hd ⊢
    by_cases hmem : doc ∈ st.1
    · rw [if_pos hmem] at hd ⊢
      exact h d hd
    · rw [if_neg hmem] at hd ⊢
      rcases List.mem_append.1 hd with hd | hd
      · rcases h d hd with h1 | h1
        · exact Or.inl h1
        · exact Or.inr h1
      · rw [List.mem_singleton] at hd
        subst hd
        exact Or.inr (hm i d hg)

theorem idxStep_inv (getById : String → Option (List Char × Meta)) (ml : Nat)
    (sid : String) (m : List (Int × Doc)) (i : Int) (Q : Doc → Prop)
    (hm : ∀ (j : Int) (doc : Doc), m.lookup j = some doc → Q doc)
    (st : List Doc × Nat × List Doc)
    (h : ∀ d ∈ st.1, d ∈ st.2.2 ∨ Q d) :
    ∀ d ∈ (idxStep getById ml sid m i st).1,
      d ∈ (idxStep getById ml sid m i st).2.2 ∨ Q d := by
  have h1 := mainChunkStep_inv m i Q hm st h
  have h2 : ∀ d ∈ (if 0 < i then
        tryInsertChunk getById ml (sid ++ "_chunk_" ++ toString (i - 1))
          (mainChunkStep m i st)
      else mainChunkStep m i st).1,
      d ∈ (if 0 < i then
        tryInsertChunk getById ml (sid ++ "_chunk_" ++ toString (i - 1))
          (mainChunkStep m i st)
      else mainChunkStep m i st).2.2 ∨ Q d := by
    by_cases hpos : 0 < i
    · rw [if_pos hpos]
      exact tryInsertChunk_inv getById ml _ Q _ h1
    · rw [if_neg hpos]
      exact h1
  exact tryInsertChunk_inv getById ml _ Q _ h2

theorem processIdxs_inv (getById : String → Option (List Char × Meta)) (ml : Nat)
    (sid : String) (m : List (Int × Doc)) (Q : Doc → Prop)
    (hm : ∀ (j : Int) (doc : Doc), m.lookup j = some doc → Q doc) :
    ∀ (idxs : List Int) (st : List Doc × Nat × List Doc),
      (∀ d ∈ st.1, d ∈ st.2.2 ∨ Q d) →
      ∀ d ∈ (processIdxs getById ml sid m idxs st).1,
        d ∈ (processIdxs getById ml sid m idxs st).2.2 ∨ Q d := by
  intro idxs
  induction idxs with
  | nil => intro st h d hd; exact h d hd
  | cons i rest ih =>
    intro st h d hd
    have h3 := idxStep_inv getById ml sid m i Q hm st h
    simp only [processIdxs] at hd ⊢
    by_cases hstop : ml ≤ (idxStep getById ml sid m i st).2.1
    · rw [if_pos hstop] at hd ⊢
      exact h3 d hd
    · rw [if_neg hstop] at hd ⊢
      exact ih _ h3 d hd

theorem processGroups_inv (getById : String → Option (List Char × Meta)) (ml : Nat)
    (Q : Doc → Prop) :
    ∀ (gs : List (String × List (Int × Doc))) (st : List Doc × Nat × List Doc),
      (∀ e ∈ gs, ∀ (j : Int) (doc : Doc), e.2.lookup j = some doc → Q doc) →
      (∀ d ∈ st.1, d ∈ st.2.2 ∨ Q d) →
      ∀ d ∈ (processGroups getById ml gs st).1,
        d ∈ (processGroups getById ml gs st).2.2 ∨ Q d := by
  intro gs
  induction gs with
  | nil => intro st _ h d hd; exact h d hd
  | cons e rest ih =>
    rcases e with ⟨sid, m⟩
    intro st hg h d hd
    simp only [processGroups] at hd ⊢
    by_cases hm0 : m = []
    · rw [if_pos hm0] at hd ⊢
      exact ih st (fun e he => hg e (List.mem_cons_of_mem _ he)) h d hd
    · rw [if_neg hm0] at hd ⊢
      have h' := processIdxs_inv getById ml sid m Q
        (hg (sid, m) (List.mem_cons_self _ _)) (sortIntAsc (m.map (fun p => p.1))) st h
      exact ih _ (fun e he => hg e (List.mem_cons_of_mem _ he)) h' d hd

/-- Helper: every fragment of the stitcher's enhanced output either was
recorded as a stitch insertion or came from the input list. -/
theorem stitch_mem (getById : String → Option (List Char × Meta))
    (docs : List Doc) (ml cur : Nat) :
    ∀ d ∈ (stitchCore getById docs ml cur).1,
      d ∈ (stitchCore getById docs ml cur).2.2 ∨ d ∈ docs := by
  intro d hd
  have hg : ∀ e ∈ (groupDocs docs).1, ∀ (j : Int) (doc : Doc),
      e.2.lookup j = some doc → doc ∈ docs :=
    fun e he j doc hl => groupDocs_fst_mem docs e he (j, doc) (lookup_mem _ j doc hl)
  have hst : ∀ x ∈ (groupDocs docs).2, x ∈ (([] : List Doc)) ∨ x ∈ docs :=
    fun x hx => Or.inr (groupDocs_snd_mem docs x hx)
  exact processGroups_inv getById ml (fun x => x ∈ docs) (groupDocs docs).1
    ((groupDocs docs).2, cur, ([] : List Doc))
    hg (fun x hx => hst x hx) d hd

/-- Helper: every fragment of the pipeline stage before stitching passes the
similarity floor. -/
theorem preStitch_sim
    (S : List ℚ → Nat → String → Option (List String) → List Cand)
    (E : List Char → List ℚ) (R : Option (String → List Char → ℚ))
    (F : String → Option Int) (q_emb : List ℚ) (uid query : String) (k : Nat)
    (ms : ℚ) (ml : Nat) (w : ℚ) (ty : Option (List String)) (dd ur : Bool) :
    ∀ d ∈ preStitch S E R F q_emb uid query k ms ml w ty dd ur,
      ms ≤ d.similarity := by
  have h2 : ∀ x ∈ (if dd ∧ 1 < (sortByDesc (fun d => d.combined_score)
        (scanDocs F ms ml w (S q_emb (k * 3) uid ty) 0)).length then
      _deduplicate_context E (sortByDesc (fun d => d.combined_score)
        (scanDocs F ms ml w (S q_emb (k * 3) uid ty) 0))
    else sortByDesc (fun d => d.combined_score)
        (scanDocs F ms ml w (S q_emb (k * 3) uid ty) 0)),
      ms ≤ x.similarity := by
    intro x hx
    split at hx
    · have hx1 := dedup_subset E (95 / 100) _ x hx
      exact scanDocs_sim F ms ml w _ 0 x (mem_sortByDesc hx1)
    · exact scanDocs_sim F ms ml w _ 0 x (mem_sortByDesc hx)
  intro d hd
  simp only [preStitch] at hd
  split at hd
  · rcases rerank_sim_mem R query _ (k * 2) d hd with ⟨d0, hd0, heq⟩
    rw [heq]
    exact h2 d0 hd0
  · exact h2 d hd

/-- C3: in every retrieval result, every fragment that the stitcher did not
insert has `similarity ≥ min_similarity` (stitch-inserted fragments are exactly
those recorded by `retrieveInsertedDocs`; all other result fragments descend
from the scan, which filters by the similarity floor, through stages that never
change the `similarity` field). -/
theorem retrieve_sim_floor :
    ∀ (P : List String → Except Unit (List (List ℚ)))
      (S : List ℚ → Nat → String → Option (List String) → List Cand)
      (G : String → Option (List Char × Meta)) (E : List Char → List ℚ)
      (R : Option (String → List Char → ℚ)) (F : String → Option Int)
      (uid q : String) (k : Nat) (ms : ℚ) (ml : Nat) (w : ℚ)
      (ty : Option (List String)) (dd ur : Bool) (l : List Doc) (d : Doc),
      retrieve_user_context P S G E R F uid q k ms ml w ty dd ur = some l →
      d ∈ l →
      d ∉ retrieveInsertedDocs P S G E R F uid q k ms ml w ty dd ur →
      ms ≤ d.similarity := by
  intro P S G E R F uid q k ms ml w ty dd ur l d hret hd hnid
  simp only [retrieve_user_context] at hret
  simp only [retrieveInsertedDocs, stitchInserted] at hnid
  rcases hq : gemini_embedding P [q] with _ | ⟨qe, rest⟩ <;> rw [hq] at hret hnid
  · cases hret
  · injection hret with h'
    subst h'
    have hd1 := List.mem_of_mem_take hd
    simp only [_include_adjacent_chunks] at hd1
    split at hd1
    · rename_i hnil
      rw [hnil] at hd1
      simp at hd1
    · have hd2 := mem_sortByDesc hd1
      rcases stitch_mem G _ ml _ d hd2 with h | h
      · exact absurd h hnid
      · exact preStitch_sim S E R F qe uid q k ms ml w ty dd ur d h

/-- Witness for C3: the concrete retrieval returning `[docW]`, whose single
fragment was not stitched in and has similarity 0.9 ≥ 0.65. -/
theorem retrieve_sim_floor_witness : (65 / 100 : ℚ) ≤ docW.similarity :=
  retrieve_sim_floor errProvider storeW getByIdNone embfZero none daysMinusOne
    "u" "q" 5 (65 / 100) 2000 (2 / 10) none true true [docW] docW
    (by decide) (by decide) (by decide)

/-! ## Theorems for claim C6 -/

/-- A whitespace-run split produces nonempty, whitespace-free tokens. -/
theorem splitWSAux_tokOK :
    ∀ (s acc : List Char), (∀ c ∈ acc, c.isWhitespace = false) →
      ∀ t ∈ splitWSAux s acc, t ≠ [] ∧ ∀ c ∈ t, c.isWhitespace = false := by
  intro s
  induction s with
  | nil =>
    intro acc hacc t ht
    simp only [splitWSAux] at ht
    split at ht
    · simp at ht
    · rename_i hne
      rw [List.mem_singleton] at ht
      subst ht
      refine ⟨by simpa using hne, ?_⟩
      intro c hc
      exact hacc c (List.mem_reverse.1 hc)
  | cons c rest ih =>
    intro acc hacc t ht
    simp only [splitWSAux] at ht
    split at ht
    · split at ht
      · exact ih [] (by simp) t ht
      · rename_i hne
        rcases List.mem_cons.1 ht with ht | ht
        · subst ht
          refine ⟨by simpa using hne, ?_⟩
          intro c1 hc1
          exact hacc c1 (List.mem_reverse.1 hc1)
        · exact ih [] (by simp) t ht
    · rename_i hcws
      refine ih (c :: acc) ?_ t ht
      intro c1 hc1
      rcases List.mem_cons.1 hc1 with h | h
      · subst h
        exact Bool.not_eq_true _ ▸ hcws
      · exact hacc c1 h

theorem splitWS_tokOK (s : List Char) :
    ∀ t ∈ splitWS s, t ≠ [] ∧ ∀ c ∈ t, c.isWhitespace = false :=
  splitWSAux_tokOK s [] (by simp)

/-- Scanning a whitespace-free block just accumulates it. -/
theorem splitWSAux_append_tok :
    ∀ (t s acc : List Char), (∀ c ∈ t, c.isWhitespace = false) →
      splitWSAux (t ++ s) acc = splitWSAux s (t.reverse ++ acc) := by
  intro t
  induction t with
  | nil => intro s acc _; simp
  | cons c t' ih =>
    intro s acc h
    have hc : c.isWhitespace = false := h c (List.mem_cons_self _ _)
    simp only [List.cons_append, splitWSAux, hc, List.append_eq]
    rw [if_neg (by simp)]
    rw [ih s (c :: acc) (fun c1 hc1 => h c1 (List.mem_cons_of_mem _ hc1))]
    simp [List.append_assoc]

theorem joinWS_cons_cons (t t2 : List Char) (rest : List (List Char)) :
    joinWS (t :: t2 :: rest) = t ++ ' ' :: joinWS (t2 :: rest) := rfl

theorem joinWS_ne_nil :
    ∀ (ts : List (List Char)),
      (∀ t ∈ ts, t ≠ [] ∧ ∀ c ∈ t, c.isWhitespace = false) → ts ≠ [] →
      joinWS ts ≠ [] := by
  intro ts hts hne
  match ts with
  | [t] =>
    have := (hts t (List.mem_singleton.2 rfl)).1
    simpa [joinWS] using this
  | t :: t2 :: rest =>
    rw [joinWS_cons_cons]
    simp

/-- Splitting the space-joined token list recovers the tokens. -/
theorem splitWS_joinWS :
    ∀ (ts : List (List Char)),
      (∀ t ∈ ts, t ≠ [] ∧ ∀ c ∈ t, c.isWhitespace = false) →
      splitWS (joinWS ts) = ts := by
  intro ts
  induction ts with
  | nil => intro _; rfl
  | cons t ts' ih =>
    intro hts
    have ht := hts t (List.mem_cons_self _ _)
    cases ts' with
    | nil =>
      show splitWSAux (joinWS [t]) [] = [t]
      have h1 : splitWSAux (t ++ []) [] = splitWSAux [] (t.reverse ++ []) :=
        splitWSAux_append_tok t [] [] ht.2
      rw [List.append_nil] at h1
      rw [show joinWS [t] = t from rfl, h1]
      simp only [List.append_nil, splitWSAux]
      rw [if_neg (by simpa using ht.1)]
      rw [List.reverse_reverse]
    | cons t2 rest =>
      rw [joinWS_cons_cons]
      show splitWSAux (t ++ ' ' :: joinWS (t2 :: rest)) [] = t :: t2 :: rest
      rw [splitWSAux_append_tok t (' ' :: joinWS (t2 :: rest)) [] ht.2]
      simp only [splitWSAux]
      rw [if_pos (by decide)]
      rw [if_neg (by simpa using ht.1)]
      rw [List.append_nil, List.reverse_reverse]
      exact congrArg (t :: ·) (ih (fun t1 h1 => hts t1 (List.mem_cons_of_mem _ h1)))

/-- Whitespace collapsing is idempotent. -/
theorem collapseWS_collapseWS (s : List Char) :
    collapseWS (collapseWS s) = collapseWS s := by
  unfold collapseWS
  rw [splitWS_joinWS (splitWS s) (splitWS_tokOK s)]

theorem dropWhile_eq_self_of_all {p : Char → Bool} :
    ∀ {l : List Char}, (∀ c ∈ l, p c = false) → l.dropWhile p = l := by
  intro l h
  cases l with
  | nil => rfl
  | cons c rest =>
    rw [List.dropWhile_cons, h c (List.mem_cons_self _ _)]
    simp

theorem dropWhile_append_of_ne {p : Char → Bool} (x y : List Char)
    (hx : x.dropWhile p = x) (hne : x ≠ []) :
    (x ++ y).dropWhile p = x ++ y := by
  cases x with
  | nil => exact absurd rfl hne
  | cons c x' =>
    have hc : p c = false := by
      by_contra hcon
      rw [Bool.not_eq_false] at hcon
      rw [List.dropWhile_cons, hcon] at hx
      simp only [if_true] at hx
      have hlen := (List.dropWhile_suffix (l := x') p).sublist.length_le
      rw [hx] at hlen
      simp at hlen
    rw [List.cons_append, List.dropWhile_cons, hc]
    simp

/-- The collapsed text never starts with whitespace. -/
theorem dropWhile_collapseWS (s : List Char) :
    (collapseWS s).dropWhile Char.isWhitespace = collapseWS s := by
  unfold collapseWS
  have htok := splitWS_tokOK s
  cases hsp : splitWS s with
  | nil => rfl
  | cons t ts' =>
    have ht := htok t (hsp ▸ List.mem_cons_self _ _)
    cases t with
    | nil => exact absurd rfl ht.1
    | cons c t' =>
      have hc : c.isWhitespace = false := ht.2 c (List.mem_cons_self _ _)
      cases ts' with
      | nil =>
        show ((c :: t').dropWhile Char.isWhitespace) = c :: t'
        rw [List.dropWhile_cons, hc]
        simp
      | cons t2 rest =>
        rw [joinWS_cons_cons, List.cons_append, List.dropWhile_cons, hc]
        simp

/-- The collapsed text never ends with whitespace. -/
theorem rev_dropWhile_collapseWS (s : List Char) :
    (collapseWS s).reverse.dropWhile Char.isWhitespace = (collapseWS s).reverse := by
  unfold collapseWS
  have htok := splitWS_tokOK s
  generalize hsp : splitWS s = ts at htok
  clear hsp
  induction ts with
  | nil => rfl
  | cons t ts' ih =>
    cases ts' with
    | nil =>
      have ht := htok t (List.mem_cons_self _ _)
      show (joinWS [t]).reverse.dropWhile Char.isWhitespace = (joinWS [t]).reverse
      refine dropWhile_eq_self_of_all ?_
      intro c hc
      exact ht.2 c (List.mem_reverse.1 hc)
    | cons t2 rest =>
      have htail := ih (fun t1 h1 => htok t1 (List.mem_cons_of_mem _ h1))
      have hneji : joinWS (t2 :: rest) ≠ [] :=
        joinWS_ne_nil (t2 :: rest)
          (fun t1 h1 => htok t1 (List.mem_cons_of_mem _ h1)) (by simp)
      have hnerev : (joinWS (t2 :: rest)).reverse ≠ [] := by
        simpa using hneji
      rw [joinWS_cons_cons, List.reverse_append, List.reverse_cons,
        List.append_assoc]
      exact dropWhile_append_of_ne _ _ htail hnerev

/-- Stripping is the identity on collapsed text. -/
theorem stripChars_collapseWS (s : List Char) :
    stripChars (collapseWS s) = collapseWS s := by
  unfold stripChars
  rw [dropWhile_collapseWS, rev_dropWhile_collapseWS, List.reverse_reverse]

theorem doc_update_text_self (d : Doc) : ({ d with text := d.text }) = d := by
  cases d
  rfl

/-- Every fragment the polish loop keeps has collapsed, stripped text and has
passed the score, alphanumeric-ratio and fresh-hash checks. -/
theorem polishLoop_props (ms : ℚ) :
    ∀ (l : List Doc) (seen : List (List Char)) (d' : Doc),
      d' ∈ polishLoop ms l seen →
      stripChars d'.text = d'.text ∧ collapseWS d'.text = d'.text ∧
      ¬(d'.similarity < ms ∨ d'.combined_score < 1 / 2) ∧
      ¬((alnumCount d'.text : ℚ) < (d'.text.length : ℚ) * (3 / 10)) ∧
      hashKey d'.text ∉ seen := by
  intro l
  induction l with
  | nil => intro seen d' h; simp [polishLoop] at h
  | cons d rest ih =>
    intro seen d' h
    simp only [polishLoop] at h
    split at h
    · exact ih seen d' h
    · split at h
      · exact ih seen d' h
      · rename_i hscore
        split at h
        · exact ih seen d' h
        · rename_i halnum
          split at h
          · exact ih seen d' h
          · rename_i hhash
            rcases List.mem_cons.1 h with h | h
            · subst h
              exact ⟨stripChars_collapseWS _, collapseWS_collapseWS _, hscore,
                halnum, hhash⟩
            · have hp := ih _ d' h
              exact ⟨hp.1, hp.2.1, hp.2.2.1, hp.2.2.2.1,
                fun hmem => hp.2.2.2.2 (List.mem_append_left _ hmem)⟩

/-- The polish loop's prefix-hash bookkeeping yields pairwise distinct hash
keys in its output. -/
theorem polishLoop_hash_pairwise (ms : ℚ) :
    ∀ (l : List Doc) (seen : List (List Char)),
      List.Pairwise (fun a b : Doc => hashKey a.text ≠ hashKey b.text)
        (polishLoop ms l seen) := by
  intro l
  induction l with
  | nil => intro seen; simp [polishLoop]
  | cons d rest ih =>
    intro seen
    simp only [polishLoop]
    split
    · exact ih seen
    · split
      · exact ih seen
      · split
        · exact ih seen
        · split
          · exact ih seen
          · refine List.Pairwise.cons ?_ (ih _)
            intro b hb hcontra
            have hp := polishLoop_props ms rest
              (seen ++ [hashKey (collapseWS (stripChars d.text))]) b hb
            exact hp.2.2.2.2
              (by rw [← hcontra]; exact List.mem_append_right _ (List.mem_singleton.2 rfl))

/-- On a list whose fragments are already polished (collapsed text of length at
least 20, passing scores and ratio, pairwise fresh hashes), the polish loop is
the identity. -/
theorem polishLoop_keeps (ms : ℚ) :
    ∀ (l : List Doc) (seen : List (List Char)),
      (∀ d ∈ l, stripChars d.text = d.text ∧ collapseWS d.text = d.text ∧
        20 ≤ d.text.length ∧
        ¬(d.similarity < ms ∨ d.combined_score < 1 / 2) ∧
        ¬((alnumCount d.text : ℚ) < (d.text.length : ℚ) * (3 / 10)) ∧
        hashKey d.text ∉ seen) →
      List.Pairwise (fun a b : Doc => hashKey a.text ≠ hashKey b.text) l →
      polishLoop ms l seen = l := by
  intro l
  induction l with
  | nil => intro seen _ _; rfl
  | cons d rest ih =>
    intro seen hall hpw
    obtain ⟨hstrip, hcollapse, hlen, hscore, halnum, hhash⟩ :=
      hall d (List.mem_cons_self _ _)
    have hpw1 := List.pairwise_cons.1 hpw
    simp only [polishLoop, hstrip, hcollapse]
    rw [if_neg (by
        push_neg
        exact ⟨List.ne_nil_of_length_pos (by omega), by omega⟩),
      if_neg hscore, if_neg halnum, if_neg hhash, doc_update_text_self]
    refine congrArg (d :: ·) ?_
    refine ih (seen ++ [hashKey d.text]) ?_ hpw1.2
    intro d2 hd2
    obtain ⟨h1, h2, h3, h4, h5, h6⟩ := hall d2 (List.mem_cons_of_mem _ hd2)
    refine ⟨h1, h2, h3, h4, h5, ?_⟩
    intro hmem
    rcases List.mem_append.1 hmem with hmem | hmem
    · exact h6 hmem
    · exact hpw1.1 d2 hd2 (List.mem_singleton.1 hmem).symm

/-- C6 counterexample: a fragment whose stripped text has 21 characters
(10 letters, a 10-space run, 1 letter) survives the first polish with its text
collapsed to 12 characters; the second polish then drops it under the
20-character minimum, so `polish (polish X) ≠ polish X`. -/
theorem polish_not_idempotent :
    polish_context (polish_context [docC6] (65 / 100)) (65 / 100) ≠
      polish_context [docC6] (65 / 100) := by
  decide

/-- C6 amended: the garbage-filter polish is idempotent on every input whose
polished fragments still have at least 20 characters after whitespace
collapsing (the only way a second run can change anything is the
length-under-20 check applied to the now-collapsed text): if every fragment of
`polish X` has text length ≥ 20, then `polish (polish X) = polish X`. -/
theorem polish_idempotent_of_long :
    ∀ (X : List Doc) (ms : ℚ),
      (∀ d ∈ polish_context X ms, 20 ≤ d.text.length) →
      polish_context (polish_context X ms) ms = polish_context X ms := by
  intro X ms hlen
  by_cases hX : X = []
  · subst hX
    simp [polish_context]
  · have hY : polish_context X ms =
        sortByDesc (fun d => d.combined_score) (polishLoop ms X []) := by
      simp only [polish_context, if_neg hX]
    by_cases hY0 : polish_context X ms = []
    · rw [hY0]
      simp [polish_context]
    · have hperm : List.Perm (polish_context X ms) (polishLoop ms X []) := by
        rw [hY]
        exact sortByDesc_perm _ _
      have hsorted : List.Pairwise
          (fun a b : Doc => b.combined_score ≤ a.combined_score)
          (polish_context X ms) := by
        rw [hY]
        exact sortByDesc_sorted _ _
      have hall : ∀ d ∈ polish_context X ms,
          stripChars d.text = d.text ∧ collapseWS d.text = d.text ∧
          20 ≤ d.text.length ∧
          ¬(d.similarity < ms ∨ d.combined_score < 1 / 2) ∧
          ¬((alnumCount d.text : ℚ) < (d.text.length : ℚ) * (3 / 10)) ∧
          hashKey d.text ∉ ([] : List (List Char)) := by
        intro d hd
        have hp := polishLoop_props ms X [] d (hperm.subset hd)
        exact ⟨hp.1, hp.2.1, hlen d hd, hp.2.2.1, hp.2.2.2.1, by simp⟩
      have hpw : List.Pairwise
          (fun a b : Doc => hashKey a.text ≠ hashKey b.text)
          (polish_context X ms) :=
        (hperm.pairwise_iff (fun hxy hba => hxy hba.symm)).2
          (polishLoop_hash_pairwise ms X [])
      obtain ⟨Y, hYeq⟩ : ∃ Y, polish_context X ms = Y := ⟨_, rfl⟩
      rw [hYeq] at hY0 hall hpw hsorted ⊢
      simp only [polish_context, if_neg hY0]
      rw [polishLoop_keeps ms Y [] hall hpw]
      exact sortByDesc_eq_of_sorted hsorted

/-- Witness for C6's amended theorem: a 25-character single-token text is a
fixed point of polishing, so the hypothesis holds and `polish` is idempotent
there. -/
theorem polish_idempotent_of_long_witness :
    polish_context (polish_context [docC6b] (65 / 100)) (65 / 100) =
      polish_context [docC6b] (65 / 100) :=
  polish_idempotent_of_long [docC6b] (65 / 100) (by decide)

end

end Momentum
